import Mathlib

/-!
Verification development for the WeChat article image scraper (`main.py`).

The scraper's pure logic is shallowly embedded here:

* strings are modelled as `List Char` (`Str`), with Python string
  primitives (`startswith`, `in`, `replace`, `split`, `join`) modelled
  as executable functions on `Str`;
* the URL normalization of `extract_images_with_selenium` (lines
  200-225) is modelled by `normalizeUrl`, with Python's
  `urllib.parse.urljoin` / `urlparse` modelled by `urljoin` /
  `urlsplitWith` following CPython's algorithm;
* the effectful loops (`download_images`, `capture_article_screenshots`,
  `create_pdf`, the scroll-exhaustion loop of `scroll_to_load_images`)
  are modelled as pure functions over explicit environments that decide
  the outcome of each HTTP fetch, image decode, screenshot capture and
  PDF concatenation, recording the files each stage creates, returns
  and deletes.
-/

/-- Strings, modelled as lists of characters. -/
abbrev Str := List Char

/-- Python `s.startswith(pat)`: `strStarts pat s` is true when `pat` is a
prefix of `s`. -/
def strStarts : Str → Str → Bool
  | [], _ => true
  | _ :: _, [] => false
  | c :: p, d :: s => if c = d then strStarts p s else false

theorem strStarts_append (p r : Str) : strStarts p (p ++ r) = true := by
  induction p with
  | nil => rfl
  | cons c p ih => simp [strStarts, ih]

theorem strStarts_eq_append {p s : Str} (h : strStarts p s = true) :
    ∃ r, s = p ++ r := by
  induction p generalizing s with
  | nil => exact ⟨s, rfl⟩
  | cons c p ih =>
    cases s with
    | nil => simp [strStarts] at h
    | cons d s =>
      by_cases hc : c = d
      · subst hc
        simp [strStarts] at h
        obtain ⟨r, hr⟩ := ih h
        exact ⟨r, by simp [hr]⟩
      · simp [strStarts, hc] at h

theorem strStarts_append_right {p s : Str} (t : Str)
    (h : strStarts p s = true) : strStarts p (s ++ t) = true := by
  obtain ⟨r, rfl⟩ := strStarts_eq_append h
  simpa [List.append_assoc] using strStarts_append p (r ++ t)

/-- Python `pat in s` (substring test). -/
def strContains (pat : Str) : Str → Bool
  | [] => strStarts pat []
  | s@(_ :: t) => strStarts pat s || strContains pat t

theorem strContains_of_starts {pat s : Str} (h : strStarts pat s = true) :
    strContains pat s = true := by
  cases s with
  | nil => simpa [strContains] using h
  | cons c t => simp [strContains, h]

theorem strContains_append_left {pat s : Str} (a : Str)
    (h : strContains pat s = true) : strContains pat (a ++ s) = true := by
  induction a with
  | nil => simpa using h
  | cons c a ih =>
    rw [List.cons_append]
    have hgo : strContains pat (c :: (a ++ s))
        = (strStarts pat (c :: (a ++ s)) || strContains pat (a ++ s)) := rfl
    rw [hgo, ih, Bool.or_true]

theorem strContains_infix {pat a b : Str} :
    strContains pat (a ++ pat ++ b) = true := by
  rw [List.append_assoc]
  exact strContains_append_left a (strContains_of_starts (strStarts_append pat b))

/-- Python `s.split(c, 1)`: split at the first occurrence of `c`; the pair
is `(s, [])` when `c` does not occur. -/
def splitOnFirst (c : Char) : Str → Str × Str
  | [] => ([], [])
  | d :: rest =>
    if d = c then ([], rest)
    else
      let p := splitOnFirst c rest
      (d :: p.1, p.2)

/-- Python `s.endswith(pat)`. -/
def strEnds (pat s : Str) : Bool := strStarts pat.reverse s.reverse

theorem strEnds_eq_append {pat s : Str} (h : strEnds pat s = true) :
    ∃ a, s = a ++ pat := by
  obtain ⟨r, hr⟩ := strStarts_eq_append h
  refine ⟨r.reverse, ?_⟩
  have := congrArg List.reverse hr
  simpa using this

/-- Fuel-driven worker for `strReplace`; the fuel is always at least the
length of the string, so the fuel-exhausted branch is never reached. -/
def strReplaceGo (pat rep : Str) : Nat → Str → Str
  | _, [] => []
  | 0, s => s
  | fuel + 1, c :: s =>
    if pat ≠ [] ∧ strStarts pat (c :: s) = true then
      rep ++ strReplaceGo pat rep fuel ((c :: s).drop pat.length)
    else
      c :: strReplaceGo pat rep fuel s

/-- Python `s.replace(pat, rep)`: replaces every non-overlapping
occurrence of `pat`, scanning left to right. -/
def strReplace (s pat rep : Str) : Str := strReplaceGo pat rep s.length s

theorem strReplaceGo_suffix (pat rep : Str) (hpat : pat ≠ []) :
    ∀ (a : Str) (fuel : Nat), (a ++ pat).length ≤ fuel + 1 →
      ∃ x y, strReplaceGo pat rep (fuel + 1) (a ++ pat) = x ++ rep ++ y := by
  have hplen : 0 < pat.length := List.length_pos.mpr hpat
  intro a
  induction a with
  | nil =>
    intro fuel _
    obtain ⟨c, pt, rfl⟩ : ∃ c pt, pat = c :: pt := by
      cases pat with
      | nil => exact absurd rfl hpat
      | cons c pt => exact ⟨c, pt, rfl⟩
    have hgo : strReplaceGo (c :: pt) rep (fuel + 1) ([] ++ (c :: pt))
        = if (c :: pt : Str) ≠ [] ∧ strStarts (c :: pt) (c :: pt) = true then
            rep ++ strReplaceGo (c :: pt) rep fuel ((c :: pt : Str).drop (c :: pt : Str).length)
          else c :: strReplaceGo (c :: pt) rep fuel pt := rfl
    rw [hgo, if_pos ⟨by simp, by simpa using strStarts_append (c :: pt) []⟩]
    exact ⟨[], _, by rw [List.nil_append]⟩
  | cons c a ih =>
    intro fuel hlen
    have hgo : strReplaceGo pat rep (fuel + 1) ((c :: a) ++ pat)
        = if pat ≠ [] ∧ strStarts pat (c :: (a ++ pat)) = true then
            rep ++ strReplaceGo pat rep fuel ((c :: (a ++ pat)).drop pat.length)
          else c :: strReplaceGo pat rep fuel (a ++ pat) := rfl
    rw [hgo]
    by_cases hm : pat ≠ [] ∧ strStarts pat (c :: (a ++ pat)) = true
    · rw [if_pos hm]
      exact ⟨[], _, by rw [List.nil_append]⟩
    · rw [if_neg hm]
      have hlen' : (a ++ pat).length ≤ fuel := by
        simp only [List.cons_append, List.length_cons] at hlen
        omega
      have hp : 0 < (a ++ pat).length := by
        simp only [List.length_append]
        omega
      obtain ⟨f, rfl⟩ : ∃ f, fuel = f + 1 := ⟨fuel - 1, by omega⟩
      obtain ⟨x, y, hxy⟩ := ih f hlen'
      refine ⟨c :: x, y, ?_⟩
      rw [hxy]
      simp

/-- If `s` ends in `pat` (nonempty), then the result of replacing `pat`
by `rep` contains `rep` as a substring. -/
theorem strReplace_contains_rep {s pat rep : Str} (hpat : pat ≠ [])
    (h : strEnds pat s = true) :
    strContains rep (strReplace s pat rep) = true := by
  obtain ⟨a, rfl⟩ := strEnds_eq_append h
  have hlen : 0 < (a ++ pat).length := by
    simp [List.length_append]
    cases pat with
    | nil => exact absurd rfl hpat
    | cons _ _ => simp
  obtain ⟨f, hf⟩ : ∃ f, (a ++ pat).length = f + 1 := ⟨(a ++ pat).length - 1, by omega⟩
  obtain ⟨x, y, hxy⟩ := strReplaceGo_suffix pat rep hpat a f (by omega)
  unfold strReplace
  rw [hf, hxy]
  exact strContains_infix

/-- Decimal digits of `n`, zero-padded on the left to width 3
(Python `f-string` format `{n:03d}`). -/
def pad3 (n : Nat) : Str :=
  let s := Nat.toDigits 10 n
  List.replicate (3 - s.length) '0' ++ s

/-- `os.path.join(d, n)` for a directory path with no trailing slash. -/
def pathJoin (d n : Str) : Str := d ++ '/' :: n

example : pad3 7 = "007".data := by decide
example : pad3 0 = "000".data := by decide
example : strReplace "a.jpg".data ".jpg".data "_temp.jpg".data = "a_temp.jpg".data := by decide
example : strReplace "a_temp.jpg".data ".jpg".data "_temp.jpg".data = "a_temp_temp.jpg".data := by decide
example : splitOnFirst '#' "ab#cd#e".data = ("ab".data, "cd#e".data) := by decide
example : strEnds ".jpg".data "image_001.jpg".data = true := by decide
example : strContains "_temp.jpg".data "a_temp.jpg".data = true := by decide

/-!
## URL model

`extract_images_with_selenium` (lines 209-218) normalizes candidate URLs
using `str.startswith`, string concatenation, `urllib.parse.urlparse`
and `urllib.parse.urljoin`.  The two library functions are modelled
below following CPython's `urllib/parse.py`.
-/

/-- Characters allowed in a URL scheme after the first (alphabetic)
character. -/
def isSchemeChar (c : Char) : Bool := c.isAlphanum || c = '+' || c = '-' || c = '.'

/-- Worker for `schemeSplit`: scans for a `:` preceded only by scheme
characters, accumulating the (lowercased) scheme in reverse. -/
def schemeSplitGo : Str → Str → Option (Str × Str)
  | _, [] => none
  | acc, c :: rest =>
    if c = ':' then some (acc.reverse, rest)
    else if isSchemeChar c then schemeSplitGo (c.toLower :: acc) rest
    else none

/-- Splits a leading `scheme:` off a URL, as CPython's `urlsplit` does:
the scheme must be nonempty, start with a letter, consist of scheme
characters, and be terminated by `:`. Returns the lowercased scheme and
the remainder after the colon. -/
def schemeSplit (u : Str) : Option (Str × Str) :=
  match u with
  | [] => none
  | c :: _ => if c.isAlpha then schemeSplitGo [] u else none

/-- Characters terminating the network-location part of a URL. -/
def isNetlocEnd (c : Char) : Bool := c = '/' || c = '?' || c = '#'

/-- Splits a leading `//netloc` off a URL remainder (CPython
`_splitnetloc`): the netloc extends to the first `/`, `?` or `#`. -/
def netlocSplit (u : Str) : Str × Str :=
  if strStarts "//".data u then
    let t := u.drop 2
    (t.takeWhile (fun c => !isNetlocEnd c), t.dropWhile (fun c => !isNetlocEnd c))
  else ([], u)

/-- The components produced by CPython's `urlsplit`. -/
structure UrlParts where
  scheme : Str
  netloc : Str
  path : Str
  query : Str
  frag : Str
deriving DecidableEq

/-- CPython `urlsplit(u, scheme=dflt)`: split scheme, netloc, fragment
(first `#`), query (first `?` of what precedes the fragment), path. -/
def urlsplitWith (dflt : Str) (u : Str) : UrlParts :=
  let p1 := match schemeSplit u with
    | some sr => sr
    | none => (dflt, u)
  let p2 := netlocSplit p1.2
  let p3 := splitOnFirst '#' p2.2
  let p4 := splitOnFirst '?' p3.1
  ⟨p1.1, p2.1, p4.1, p4.2, p3.2⟩

/-- CPython `urllib.parse.uses_relative`. -/
def usesRelative : List Str :=
  (["", "ftp", "http", "gopher", "nntp", "imap", "wais", "file", "https",
    "shttp", "mms", "prospero", "rtsp", "rtspu", "sftp", "svn", "svn+ssh",
    "ws", "wss"] : List String).map String.data

/-- CPython `urllib.parse.uses_netloc`. -/
def usesNetloc : List Str :=
  (["", "ftp", "http", "gopher", "nntp", "telnet", "imap", "wais", "file",
    "mms", "https", "shttp", "snews", "prospero", "rtsp", "rtspu", "rsync",
    "svn", "svn+ssh", "sftp", "nfs", "git", "git+ssh", "ws", "wss",
    "itms-services"] : List String).map String.data

/-- CPython `urlunsplit`'s path adjustment after a netloc: a nonempty
path not starting with `/` gets one prefixed. -/
def pathPart (pa : Str) : Str :=
  if pa ≠ [] ∧ ¬ strStarts "/".data pa = true then '/' :: pa else pa

/-- CPython `urlunsplit`'s netloc step. -/
def netlocPart (p : UrlParts) : Str :=
  if p.netloc ≠ [] ∨ strStarts "//".data p.path = true then
    "//".data ++ p.netloc ++ pathPart p.path
  else p.path

/-- CPython `urlunsplit`'s scheme step. -/
def withScheme (scheme u : Str) : Str := if scheme ≠ [] then scheme ++ ':' :: u else u

/-- CPython `urlunsplit`'s query step. -/
def withQuery (q u : Str) : Str := if q ≠ [] then u ++ '?' :: q else u

/-- CPython `urlunsplit`'s fragment step. -/
def withFrag (f u : Str) : Str := if f ≠ [] then u ++ '#' :: f else u

/-- CPython `urlunsplit`. -/
def urlunsplit (p : UrlParts) : Str :=
  withFrag p.frag (withQuery p.query (withScheme p.scheme (netlocPart p)))

/-- Python `s.split('/')` (always yields at least one piece). -/
def splitSlash : Str → List Str
  | [] => [[]]
  | c :: rest =>
    let r := splitSlash rest
    if c = '/' then [] :: r
    else
      match r with
      | x :: xs => (c :: x) :: xs
      | [] => [[c]]

/-- CPython `urljoin`'s `segments[1:-1] = filter(None, segments[1:-1])`:
drop empty segments, keeping the first and last elements. -/
def filterMiddle : List Str → List Str
  | [] => []
  | [x] => [x]
  | x :: rest => x :: (rest.dropLast.filter (fun s => s ≠ [])) ++ [rest.getLastD []]

/-- CPython `urljoin`'s dot-segment resolution loop. -/
def resolveSegs (segs : List Str) : List Str :=
  segs.foldl (fun acc seg =>
    if seg = "..".data then acc.dropLast
    else if seg = ".".data then acc
    else acc ++ [seg]) []

/-- Python `'/'.join(l)`. -/
def joinSlash (l : List Str) : Str := (l.intersperse "/".data).flatten

/-- CPython `urljoin`'s relative-path merge and dot-segment resolution:
a `/`-rooted reference path replaces the base path; otherwise the
reference segments are appended to the base's directory segments, empty
middle segments are dropped, and `.`/`..` segments are resolved. -/
def urljoinPath (b r : UrlParts) : Str :=
  let segs :=
    if strStarts "/".data r.path then splitSlash r.path
    else
      let bp := splitSlash b.path
      let bp2 := if bp.getLast? = some [] then bp else bp.dropLast
      filterMiddle (bp2 ++ splitSlash r.path)
  let res := resolveSegs segs
  let res2 :=
    if segs.getLast? = some ".".data ∨ segs.getLast? = some "..".data
    then res ++ [[]] else res
  let pa := joinSlash res2
  if pa = [] then "/".data else pa

/-- CPython `urljoin` after parsing `base` into `b` and `url` (with
default scheme `b.scheme`) into `r`. -/
def urljoinMain (b r : UrlParts) (url : Str) : Str :=
  if r.scheme ≠ b.scheme ∨ r.scheme ∉ usesRelative then url
  else if r.scheme ∈ usesNetloc ∧ r.netloc ≠ [] then
    urlunsplit ⟨r.scheme, r.netloc, r.path, r.query, r.frag⟩
  else if r.path = [] then
    urlunsplit ⟨r.scheme, (if r.scheme ∈ usesNetloc then b.netloc else r.netloc),
      b.path, (if r.query = [] then b.query else r.query), r.frag⟩
  else
    urlunsplit ⟨r.scheme, (if r.scheme ∈ usesNetloc then b.netloc else r.netloc),
      urljoinPath b r, r.query, r.frag⟩

/-- CPython `urllib.parse.urljoin(base, url)` (parameters are folded into
the path, as neither the scraper's page URL nor its candidates carry
`;`-parameters). -/
def urljoin (base url : Str) : Str :=
  if base = [] then url
  else if url = [] then base
  else urljoinMain (urlsplitWith [] base) (urlsplitWith (urlsplitWith [] base).scheme url) url

/-- The origin `f"{scheme}://{netloc}"` that `extract_images_with_selenium`
(lines 214-215) builds from `urlparse(self.url)` for root-relative URLs. -/
def originOf (page : Str) : Str :=
  let p := urlsplitWith [] page
  p.scheme ++ "://".data ++ p.netloc

/-- URL normalization of `extract_images_with_selenium`, lines 209-218:
protocol-relative URLs get `https:` prefixed, absolute `http(s)` URLs are
unchanged, root-relative URLs get the page origin prefixed, everything
else is resolved against the page URL with `urljoin`. -/
def normalizeUrl (page u : Str) : Str :=
  if strStarts "//".data u then "https:".data ++ u
  else if strStarts "http://".data u || strStarts "https://".data u then u
  else if strStarts "/".data u then originOf page ++ u
  else urljoin page u

example : urljoin "https://a.com/x/y".data "z".data = "https://a.com/x/z".data := by decide
example : urljoin "https://a.com/x/y".data "../w".data = "https://a.com/w".data := by decide
example : urljoin "https://a.com/x/y".data "".data = "https://a.com/x/y".data := by decide
example : urljoin "https://a.com/x/y".data "ftp://h/q".data = "ftp://h/q".data := by decide
example : urljoin "https://a.com/x/y".data "http://h/q".data = "http://h/q".data := by decide
example : normalizeUrl "https://a.com/x/y".data "//img.com/p.jpg".data = "https://img.com/p.jpg".data := by decide
example : normalizeUrl "https://a.com/x/y".data "/p.jpg".data = "https://a.com/p.jpg".data := by decide
example : normalizeUrl "https://a.com/x/y".data "p.jpg".data = "https://a.com/x/p.jpg".data := by decide

/-!
## ImageUrlExtractor

The URL-processing loop of `extract_images_with_selenium`, lines 200-222:
skip `data:` URLs, normalize, and append when nonempty and not already
present.
-/

/-- The accumulator loop of lines 201-222 (`image_urls = []; for url in
...`), with `acc` holding the URLs collected so far in order. -/
def processGo (page : Str) : List Str → List Str → List Str
  | acc, [] => acc
  | acc, u :: rest =>
    if strStarts "data:".data u then processGo page acc rest
    else
      let v := normalizeUrl page u
      if v ≠ [] ∧ v ∉ acc then processGo page (acc ++ [v]) rest
      else processGo page acc rest

/-- The pure part of `extract_images_with_selenium` (lines 200-225):
the ordered, deduplicated list of normalized candidate URLs produced
from the raw in-page records. -/
def extract_image_urls (page : Str) (records : List Str) : List Str :=
  processGo page [] records

/-- First-occurrence deduplication, written as the specification states
it: keep each element's first occurrence, drop later duplicates. -/
def dedupFirst : List Str → List Str
  | [] => []
  | x :: xs => x :: dedupFirst (xs.filter (fun y => y ≠ x))
termination_by l => l.length
decreasing_by
  simp only [List.length_cons]
  exact Nat.lt_succ_of_le (List.length_filter_le _ _)

/-- The normalized non-`data:`, nonempty candidate URLs, in input order
(before deduplication). -/
def normCandidates (page : Str) (records : List Str) : List Str :=
  ((records.filter (fun u => !(strStarts "data:".data u))).map (normalizeUrl page)).filter
    (fun v => v ≠ [])

/-!
## ImageFetcher and ScreenshotFallback

`download_images` (lines 231-296) and `capture_article_screenshots`
(lines 298-338), modelled over environments deciding the outcome of each
HTTP fetch / decode / save and of each screenshot capture.
-/

/-- Outcome of processing one candidate URL in `download_images`:
the HTTP GET fails (line 255), the body does not decode as an image
(line 280), or it decodes with true pixel size `w × h` and the final
`img.save` succeeds or fails. -/
inductive FetchOutcome where
  | httpFail
  | decodeFail
  | ok (w h : Nat) (saveOk : Bool)
deriving DecidableEq

/-- A retrieved image: the stored file path and the true decoded pixel
dimensions of what was stored. -/
structure RetrievedImage where
  path : Str
  pixelWidth : Nat
  pixelHeight : Nat
deriving DecidableEq

/-- The filename `f"image_{i+1:03d}.jpg"` of line 269 for the candidate
at 0-based position `i`. -/
def imageFilename (i : Nat) : Str :=
  "image_".data ++ pad3 (i + 1) ++ ".jpg".data

/-- The download loop of lines 246-287 (`for i, url in
enumerate(image_urls)`), starting at position `i`: a candidate is kept
only if its GET succeeds, it decodes, both true dimensions are at least
100, and the save succeeds; the filename index is the candidate's
position. -/
def downloadGo (env : Str → FetchOutcome) (outDir : Str) : Nat → List Str → List RetrievedImage
  | _, [] => []
  | i, u :: rest =>
    match env u with
    | .httpFail => downloadGo env outDir (i + 1) rest
    | .decodeFail => downloadGo env outDir (i + 1) rest
    | .ok w h saveOk =>
      if w < 100 ∨ h < 100 then downloadGo env outDir (i + 1) rest
      else if saveOk then
        ⟨pathJoin outDir (imageFilename i), w, h⟩ :: downloadGo env outDir (i + 1) rest
      else downloadGo env outDir (i + 1) rest

/-- Outcome of one screenshot band in `capture_article_screenshots`:
either some step (scroll, capture, decode, save) raises, or a raster of
size `w × h` is captured and saved. -/
inductive BandOutcome where
  | err
  | ok (w h : Nat)

/-- Environment for `capture_article_screenshots`: whether locating the
content element raises, the measured element height, and the outcome of
each band. -/
structure ShotEnv where
  findFail : Bool
  totalHeight : Nat
  band : Nat → BandOutcome

/-- Result of the screenshot fallback: the returned list, the files
persisted to disk, and whether an error aborted the loop. -/
structure ShotResult where
  ret : List RetrievedImage
  disk : List Str
  aborted : Bool
deriving DecidableEq

/-- The filename `f"screenshot_{i//viewport_height:03d}.jpg"` of line 328
for band index `j`. -/
def screenshotFilename (j : Nat) : Str :=
  "screenshot_".data ++ pad3 j ++ ".jpg".data

/-- The band loop of lines 318-332 over the listed band indices: an error
jumps to the `except` handler of line 336, which returns `[]`; bands
captured before the error stay on disk. -/
def shotsGo (env : ShotEnv) (outDir : Str) : List Nat → ShotResult
  | [] => ⟨[], [], false⟩
  | j :: rest =>
    match env.band j with
    | .err => ⟨[], [], true⟩
    | .ok w h =>
      let s := shotsGo env outDir rest
      let p := pathJoin outDir (screenshotFilename j)
      ⟨if s.aborted then [] else ⟨p, w, h⟩ :: s.ret, p :: s.disk, s.aborted⟩

/-- The number of 1000px bands `range(0, total_height, 1000)` yields. -/
def bandCount (totalHeight : Nat) : Nat := (totalHeight + 999) / 1000

/-- `capture_article_screenshots` (lines 298-338): locate the content
element (any error returns `[]`), slice its height into 1000px bands and
capture each; any error returns `[]`, keeping already-saved files on
disk. -/
def capture_article_screenshots (env : ShotEnv) (outDir : Str) : ShotResult :=
  if env.findFail then ⟨[], [], true⟩
  else shotsGo env outDir (List.range (bandCount env.totalHeight))

/-- Result of `download_images`: the returned list and whether the
screenshot fallback of lines 289-295 was invoked. -/
structure DownloadResult where
  result : List RetrievedImage
  usedFallback : Bool
deriving DecidableEq

/-- `download_images` (lines 231-296): an empty candidate list returns
`[]` immediately (line 241); otherwise the download loop runs, and if it
produced nothing and a driver is present, the screenshot fallback's
output is returned instead. -/
def download_images (env : Str → FetchOutcome) (shots : ShotEnv) (outDir : Str)
    (driver : Bool) (image_urls : List Str) : DownloadResult :=
  if image_urls = [] then ⟨[], false⟩
  else
    let d := downloadGo env outDir 0 image_urls
    if d = [] ∧ driver then ⟨(capture_article_screenshots shots outDir).ret, true⟩
    else ⟨d, false⟩

/-!
## DocumentAssembler

`create_pdf` (lines 340-389), modelled over an environment deciding
whether each source image re-encodes successfully and whether the final
`img2pdf.convert` + write succeeds.
-/

/-- Environment for `create_pdf`: whether opening/converting/saving each
input image succeeds (lines 360-372), and whether the PDF concatenation
and write succeed (lines 375-376). -/
structure PdfEnv where
  imgOk : Str → Bool
  convertOk : Bool

/-- Result of `create_pdf`: the returned path, the transient `_temp`
copies created, the files deleted by the cleanup loop, and the pages of
the written document (the transient copies, in order). -/
structure PdfResult where
  out : Option Str
  tempsCreated : List Str
  tempsDeleted : List Str
  pdfPages : Option (List Str)
deriving DecidableEq

/-- The transient path `img_path.replace('.jpg', '_temp.jpg')` of
line 367. -/
def tempPath (p : Str) : Str := strReplace p ".jpg".data "_temp.jpg".data

/-- `create_pdf` (lines 340-389): empty input returns `None` at once;
otherwise each input that re-encodes contributes a transient copy, the
copies are concatenated, and on success the cleanup loop (lines 381-383)
removes the created copies whose path contains `_temp.jpg`; a
concatenation/write failure is caught at line 387 and returns `None`
without reaching the cleanup loop. -/
def create_pdf (env : PdfEnv) (outDir pdfName : Str) (image_paths : List Str) : PdfResult :=
  if image_paths = [] then ⟨none, [], [], none⟩
  else
    let converted := image_paths.filterMap (fun p =>
      if env.imgOk p then some (tempPath p) else none)
    if env.convertOk then
      ⟨some (pathJoin outDir pdfName), converted,
        converted.filter (fun t => strContains "_temp.jpg".data t), some converted⟩
    else ⟨none, converted, [], none⟩

/-!
## RenderedPageLoader

The scroll-exhaustion loop of `scroll_to_load_images`, lines 104-117:
`h k` is the scroll height measured after the `k`-th scroll-and-pause
(`h 0` is the height measured before the loop, line 104).
-/

/-- The `for _ in range(5)` loop of lines 106-117, returning the number
of iterations executed: iteration `k` scrolls, pauses, reads `h k`, and
breaks if it equals the previous measurement. -/
def scrollGo (h : Nat → Nat) : Nat → Nat → Nat → Nat
  | 0, _, _ => 0
  | fuel + 1, last, k =>
    if h k = last then 1
    else 1 + scrollGo h fuel (h k) (k + 1)

/-- Number of iterations the scroll-exhaustion loop executes for the
height sequence `h`. -/
def scrollExhaustIters (h : Nat → Nat) : Nat := scrollGo h 5 (h 0) 1

example : scrollExhaustIters (fun _ => 42) = 1 := by decide
example : scrollExhaustIters (fun k => k) = 5 := by decide
example : extract_image_urls "https://a.com/x".data
    ["//i.com/a.jpg".data, "data:image/png;base64,xx".data, "//i.com/a.jpg".data, "/b.jpg".data]
    = ["https://i.com/a.jpg".data, "https://a.com/b.jpg".data] := by decide

/-!
## Claim theorems
-/

theorem scrollGo_le (h : Nat → Nat) : ∀ fuel last k, scrollGo h fuel last k ≤ fuel := by
  intro fuel
  induction fuel with
  | zero => intro last k; exact Nat.le_refl 0
  | succ f ih =>
    intro last k
    have hgo : scrollGo h (f + 1) last k
        = if h k = last then 1 else 1 + scrollGo h f (h k) (k + 1) := rfl
    rw [hgo]
    split
    · omega
    · have := ih (h k) (k + 1)
      omega

/-- C9: if the scroll height measured after the first scroll-and-pause
equals the height measured before it, the exhaustion loop exits after
exactly one iteration; in every case it performs at most 5 iterations. -/
theorem c9_scroll_exhaustion (h : Nat → Nat) :
    (h 1 = h 0 → scrollExhaustIters h = 1) ∧ scrollExhaustIters h ≤ 5 := by
  refine ⟨fun he => ?_, scrollGo_le h 5 (h 0) 1⟩
  have hgo : scrollExhaustIters h
      = if h 1 = h 0 then 1 else 1 + scrollGo h 4 (h 1) 2 := rfl
  rw [hgo, if_pos he]

/-- C9 witness: a constant height sequence exits after one iteration. -/
theorem c9_witness :
    scrollExhaustIters (fun _ => 7) = 1 ∧ scrollExhaustIters (fun _ => 7) ≤ 5 :=
  ⟨(c9_scroll_exhaustion (fun _ => 7)).1 rfl, (c9_scroll_exhaustion (fun _ => 7)).2⟩

theorem shotsGo_aborted_ret (env : ShotEnv) (outDir : Str) :
    ∀ l, (shotsGo env outDir l).aborted = true → (shotsGo env outDir l).ret = [] := by
  intro l
  induction l with
  | nil => intro hab; simp [shotsGo] at hab
  | cons j rest ih =>
    intro hab
    cases hb : env.band j with
    | err => simp [shotsGo, hb]
    | ok w h =>
      simp only [shotsGo, hb] at hab ⊢
      rw [if_pos hab]

/-- C2 (amended): any error aborts the screenshot fallback and makes it
return the empty list; slices captured before the error stay persisted
on disk but are not included in the returned list. -/
theorem c2_capture_error_returns_empty (env : ShotEnv) (outDir : Str)
    (hab : (capture_article_screenshots env outDir).aborted = true) :
    (capture_article_screenshots env outDir).ret = [] := by
  by_cases hf : env.findFail = true
  · simp [capture_article_screenshots, hf]
  · simp only [capture_article_screenshots, hf] at hab ⊢
    rw [if_neg (by simp [hf])] at hab ⊢
    exact shotsGo_aborted_ret env outDir _ hab

/-- Screenshot environment with two 1000px bands where the second band's
capture raises. -/
def shotEnvC2 : ShotEnv :=
  ⟨false, 1500, fun j => if j = 0 then .ok 800 600 else .err⟩

/-- C2 counterexample: an error in the second band leaves the first slice
persisted on disk, yet the fallback returns the empty list rather than
the list of already-captured slices. -/
theorem c2_counterexample :
    (capture_article_screenshots shotEnvC2 "output".data).aborted = true
    ∧ (capture_article_screenshots shotEnvC2 "output".data).disk
        = [pathJoin "output".data "screenshot_000.jpg".data]
    ∧ (capture_article_screenshots shotEnvC2 "output".data).ret = [] := by
  decide

/-- C2 witness: the amended statement holds at the concrete erroring
environment. -/
theorem c2_witness :
    (capture_article_screenshots shotEnvC2 "output".data).aborted = true
    ∧ (capture_article_screenshots shotEnvC2 "output".data).ret = [] :=
  ⟨by decide, c2_capture_error_returns_empty shotEnvC2 "output".data (by decide)⟩

/-- C1 (amended): every RetrievedImage appended by the download loop of
`download_images` has true decoded width and height at least 100; the
screenshot fallback applies no such filter. -/
theorem c1_download_dimension_filter (env : Str → FetchOutcome) (outDir : Str) :
    ∀ (i : Nat) (urls : List Str) (r : RetrievedImage),
      r ∈ downloadGo env outDir i urls → 100 ≤ r.pixelWidth ∧ 100 ≤ r.pixelHeight := by
  intro i urls
  induction urls generalizing i with
  | nil => intro r hr; simp [downloadGo] at hr
  | cons u rest ih =>
    intro r hr
    cases hu : env u with
    | httpFail =>
      simp only [downloadGo, hu] at hr
      exact ih (i + 1) r hr
    | decodeFail =>
      simp only [downloadGo, hu] at hr
      exact ih (i + 1) r hr
    | ok w h saveOk =>
      simp only [downloadGo, hu] at hr
      by_cases hd : w < 100 ∨ h < 100
      · rw [if_pos hd] at hr
        exact ih (i + 1) r hr
      · rw [if_neg hd] at hr
        cases saveOk with
        | false =>
          rw [if_neg (by simp)] at hr
          exact ih (i + 1) r hr
        | true =>
          rw [if_pos rfl] at hr
          rcases List.mem_cons.mp hr with h1 | h1
          · subst h1
            push_neg at hd
            exact ⟨hd.1, hd.2⟩
          · exact ih (i + 1) r h1

/-- Fetch environment where every HTTP GET fails. -/
def fetchEnvFail : Str → FetchOutcome := fun _ => .httpFail

/-- Screenshot environment producing a single 50x50 raster. -/
def shotEnvSmall : ShotEnv := ⟨false, 500, fun _ => .ok 50 50⟩

/-- C1 counterexample: when every download fails and the fallback captures
a 50x50 raster, the pipeline's RetrievedImage list contains an image with
both true dimensions below 100. -/
theorem c1_counterexample :
    (download_images fetchEnvFail shotEnvSmall "output".data true ["u".data]).result
      = [⟨pathJoin "output".data "screenshot_000.jpg".data, 50, 50⟩]
    ∧ 50 < 100 := by
  decide

/-- Fetch environment returning one valid 200x300 image. -/
def fetchEnvBig : Str → FetchOutcome := fun _ => .ok 200 300 true

/-- C1 witness: the amended statement applied to a concrete environment
where the download loop keeps one image. -/
theorem c1_witness :
    100 ≤ (⟨pathJoin "output".data (imageFilename 0), 200, 300⟩ : RetrievedImage).pixelWidth
    ∧ 100 ≤ (⟨pathJoin "output".data (imageFilename 0), 200, 300⟩ : RetrievedImage).pixelHeight :=
  c1_download_dimension_filter fetchEnvBig "output".data 0 ["u".data] _ (by decide)

/-- Screenshot environment that would capture one valid 800x600 slice. -/
def shotEnvC4 : ShotEnv := ⟨false, 500, fun _ => .ok 800 600⟩

/-- C4 counterexample: with an empty candidate list, `download_images`
returns an empty result at line 241 without invoking the screenshot
fallback, even though the fallback would have produced a nonempty list. -/
theorem c4_counterexample :
    (download_images fetchEnvFail shotEnvC4 "output".data true []).result = []
    ∧ (download_images fetchEnvFail shotEnvC4 "output".data true []).usedFallback = false
    ∧ (capture_article_screenshots shotEnvC4 "output".data).ret ≠ [] := by
  decide

/-- C4 (amended): for every nonempty candidate list, if the download loop
produced no image and a driver handle is present, the screenshot fallback
is invoked and its output is what `download_images` returns. -/
theorem c4_fallback_on_empty (env : Str → FetchOutcome) (shots : ShotEnv)
    (outDir : Str) (urls : List Str) (hne : urls ≠ [])
    (hempty : downloadGo env outDir 0 urls = []) :
    (download_images env shots outDir true urls).usedFallback = true
    ∧ (download_images env shots outDir true urls).result
        = (capture_article_screenshots shots outDir).ret := by
  simp [download_images, hne, hempty]

/-- C4 witness: the amended statement at a concrete all-failing fetch
environment. -/
theorem c4_witness :
    (download_images fetchEnvFail shotEnvC4 "output".data true ["u".data]).usedFallback = true
    ∧ (download_images fetchEnvFail shotEnvC4 "output".data true ["u".data]).result
        = (capture_article_screenshots shotEnvC4 "output".data).ret :=
  c4_fallback_on_empty fetchEnvFail shotEnvC4 "output".data ["u".data]
    (by decide) (by decide)

/-- The transient copies `create_pdf`'s conversion loop creates. -/
def convertedTemps (env : PdfEnv) (image_paths : List Str) : List Str :=
  image_paths.filterMap (fun p => if env.imgOk p then some (tempPath p) else none)

theorem create_pdf_success (env : PdfEnv) (outDir pdfName : Str) {paths : List Str}
    (hp : paths ≠ []) (hc : env.convertOk = true) :
    create_pdf env outDir pdfName paths
      = ⟨some (pathJoin outDir pdfName), convertedTemps env paths,
         (convertedTemps env paths).filter (fun t => strContains "_temp.jpg".data t),
         some (convertedTemps env paths)⟩ := by
  simp only [create_pdf, convertedTemps]
  rw [if_neg hp, if_pos hc]

theorem create_pdf_failure (env : PdfEnv) (outDir pdfName : Str) {paths : List Str}
    (hp : paths ≠ []) (hc : env.convertOk = false) :
    create_pdf env outDir pdfName paths = ⟨none, convertedTemps env paths, [], none⟩ := by
  simp only [create_pdf, convertedTemps]
  rw [if_neg hp, if_neg (by simp [hc])]

theorem convertedTemps_mem (env : PdfEnv) {paths : List Str} {t : Str}
    (ht : t ∈ convertedTemps env paths) :
    ∃ p ∈ paths, env.imgOk p = true ∧ t = tempPath p := by
  obtain ⟨p, hpmem, hpt⟩ := List.mem_filterMap.mp ht
  by_cases hok : env.imgOk p = true
  · rw [if_pos hok] at hpt
    exact ⟨p, hpmem, hok, (Option.some_inj.mp hpt).symm⟩
  · rw [if_neg hok] at hpt
    exact absurd hpt (by simp)

/-- PDF environment where each image re-encodes but the concatenation
(`img2pdf.convert` / the write) fails. -/
def pdfEnvC3 : PdfEnv := ⟨fun _ => true, false⟩

/-- C3 counterexample: with one input whose transient copy is created and
a failing concatenation, `create_pdf` returns `None` with the transient
copy still on disk — cleanup is skipped on the error path. -/
theorem c3_counterexample :
    (create_pdf pdfEnvC3 "output".data "doc.pdf".data ["a.jpg".data]).tempsCreated
      = ["a_temp.jpg".data]
    ∧ (create_pdf pdfEnvC3 "output".data "doc.pdf".data ["a.jpg".data]).tempsDeleted = []
    ∧ (create_pdf pdfEnvC3 "output".data "doc.pdf".data ["a.jpg".data]).out = none := by
  decide

/-- C3 (amended): `create_pdf` deletes the transient copies only on the
success path — there it deletes exactly the created copies (all of them
when every input path ends in `.jpg`); on a concatenation/write error it
returns `None` without deleting any transient copy. -/
theorem c3_cleanup_success_only (env : PdfEnv) (outDir pdfName : Str) (paths : List Str) :
    (env.convertOk = true → (∀ p ∈ paths, strEnds ".jpg".data p = true) →
      (create_pdf env outDir pdfName paths).tempsDeleted
        = (create_pdf env outDir pdfName paths).tempsCreated)
    ∧ (env.convertOk = false →
      (create_pdf env outDir pdfName paths).tempsDeleted = []) := by
  constructor
  · intro hc hjpg
    by_cases hp : paths = []
    · subst hp; simp [create_pdf]
    · rw [create_pdf_success env outDir pdfName hp hc]
      refine List.filter_eq_self.mpr ?_
      intro t ht
      obtain ⟨p, hpmem, _, rfl⟩ := convertedTemps_mem env ht
      exact strReplace_contains_rep (by decide) (hjpg p hpmem)
  · intro hc
    by_cases hp : paths = []
    · subst hp; simp [create_pdf]
    · rw [create_pdf_failure env outDir pdfName hp hc]

/-- PDF environment where everything succeeds. -/
def pdfEnvOk : PdfEnv := ⟨fun _ => true, true⟩

/-- C3 witness: the amended statement at concrete environments for the
success path and the failing-concatenation path. -/
theorem c3_witness :
    (create_pdf pdfEnvOk "output".data "doc.pdf".data ["a.jpg".data]).tempsDeleted
      = (create_pdf pdfEnvOk "output".data "doc.pdf".data ["a.jpg".data]).tempsCreated
    ∧ (create_pdf pdfEnvC3 "output".data "doc.pdf".data ["a.jpg".data]).tempsDeleted = [] :=
  ⟨(c3_cleanup_success_only pdfEnvOk "output".data "doc.pdf".data ["a.jpg".data]).1
      rfl (by decide),
   (c3_cleanup_success_only pdfEnvC3 "output".data "doc.pdf".data ["a.jpg".data]).2 rfl⟩

theorem convertedTemps_eq_map (env : PdfEnv) {paths : List Str}
    (hok : ∀ p ∈ paths, env.imgOk p = true) :
    convertedTemps env paths = paths.map tempPath := by
  induction paths with
  | nil => rfl
  | cons p rest ih =>
    simp only [convertedTemps, List.filterMap_cons, List.map_cons] at *
    rw [if_pos (hok p (by simp))]
    rw [ih (fun q hq => hok q (by simp [hq]))]

/-- C7: `create_pdf` applied to the empty list returns `None` at once and
writes no document; applied to a nonempty list of decodable images with a
succeeding concatenation, it returns the output path and the written
document has exactly one page per input image, in input order. -/
theorem c7_assembly_totality (env : PdfEnv) (outDir pdfName : Str) :
    create_pdf env outDir pdfName [] = ⟨none, [], [], none⟩
    ∧ ∀ paths : List Str, paths ≠ [] → (∀ p ∈ paths, env.imgOk p = true) →
        env.convertOk = true →
        (create_pdf env outDir pdfName paths).out = some (pathJoin outDir pdfName)
        ∧ (create_pdf env outDir pdfName paths).pdfPages = some (paths.map tempPath)
        ∧ (paths.map tempPath).length = paths.length := by
  refine ⟨by simp [create_pdf], ?_⟩
  intro paths hp hok hc
  rw [create_pdf_success env outDir pdfName hp hc]
  exact ⟨rfl, by simp only [convertedTemps_eq_map env hok], by simp⟩

/-- C7 witness: two valid images yield a two-page document at the output
path. -/
theorem c7_witness :
    (create_pdf pdfEnvOk "output".data "doc.pdf".data ["a.jpg".data, "b.jpg".data]).out
      = some (pathJoin "output".data "doc.pdf".data)
    ∧ (create_pdf pdfEnvOk "output".data "doc.pdf".data ["a.jpg".data, "b.jpg".data]).pdfPages
      = some ((["a.jpg".data, "b.jpg".data] : List Str).map tempPath)
    ∧ (((["a.jpg".data, "b.jpg".data] : List Str)).map tempPath).length = 2 := by
  have h := (c7_assembly_totality pdfEnvOk "output".data "doc.pdf".data).2
    ["a.jpg".data, "b.jpg".data] (by decide) (by decide) rfl
  exact ⟨h.1, h.2.1, h.2.2⟩

/-- C10 counterexample: for the input list `["a_temp.jpg", "a.jpg"]` (all
paths end in `.jpg`), the transient copy of `"a.jpg"` is the other input
path `"a_temp.jpg"`, which is then both overwritten and removed by the
cleanup loop. -/
theorem c10_counterexample :
    strEnds ".jpg".data "a_temp.jpg".data = true
    ∧ strEnds ".jpg".data "a.jpg".data = true
    ∧ tempPath "a.jpg".data = "a_temp.jpg".data
    ∧ "a_temp.jpg".data ∈
        (create_pdf pdfEnvOk "output".data "doc.pdf".data
          ["a_temp.jpg".data, "a.jpg".data]).tempsCreated
    ∧ "a_temp.jpg".data ∈
        (create_pdf pdfEnvOk "output".data "doc.pdf".data
          ["a_temp.jpg".data, "a.jpg".data]).tempsDeleted := by
  decide

/-- C10 (amended): for input lists whose paths all end in `.jpg` and none
of which contains `_temp.jpg`, no transient copy path coincides with an
input path, and the cleanup loop deletes only paths containing
`_temp.jpg`, none of which is an input path. -/
theorem c10_no_input_clobber (env : PdfEnv) (outDir pdfName : Str) (paths : List Str)
    (hjpg : ∀ p ∈ paths, strEnds ".jpg".data p = true
              ∧ strContains "_temp.jpg".data p = false) :
    (∀ t ∈ (create_pdf env outDir pdfName paths).tempsCreated, t ∉ paths)
    ∧ (∀ t ∈ (create_pdf env outDir pdfName paths).tempsDeleted,
        strContains "_temp.jpg".data t = true ∧ t ∉ paths) := by
  have hconv : ∀ t ∈ convertedTemps env paths,
      strContains "_temp.jpg".data t = true ∧ t ∉ paths := by
    intro t ht
    obtain ⟨p, hpmem, _, rfl⟩ := convertedTemps_mem env ht
    have hcon : strContains "_temp.jpg".data (tempPath p) = true :=
      strReplace_contains_rep (by decide) (hjpg p hpmem).1
    refine ⟨hcon, fun hmem => ?_⟩
    rw [(hjpg _ hmem).2] at hcon
    exact absurd hcon (by simp)
  by_cases hp : paths = []
  · subst hp; simp [create_pdf]
  · cases hc : env.convertOk with
    | false =>
      rw [create_pdf_failure env outDir pdfName hp hc]
      exact ⟨fun t ht => (hconv t ht).2, fun t ht => by simp at ht⟩
    | true =>
      rw [create_pdf_success env outDir pdfName hp hc]
      refine ⟨fun t ht => (hconv t ht).2, fun t ht => ?_⟩
      have hm := List.mem_filter.mp ht
      exact ⟨hm.2, (hconv t hm.1).2⟩

/-- C10 witness: for the well-behaved input `["b.jpg"]` the created
transient copy is not an input path. -/
theorem c10_witness :
    "b_temp.jpg".data ∈
      (create_pdf pdfEnvOk "output".data "doc.pdf".data ["b.jpg".data]).tempsCreated
    ∧ "b_temp.jpg".data ∉ (["b.jpg".data] : List Str) :=
  ⟨by decide,
   (c10_no_input_clobber pdfEnvOk "output".data "doc.pdf".data ["b.jpg".data]
      (by decide)).1 "b_temp.jpg".data (by decide)⟩

/-- One step of the fetcher, as the specification words it: the candidate
at position `iu.1` either fails (HTTP, decode, dimensions, save) and
contributes nothing, or is persisted under the position-derived name
`image_{iu.1+1:03d}.jpg`. -/
def fetchStep (env : Str → FetchOutcome) (outDir : Str) (iu : Nat × Str) :
    Option RetrievedImage :=
  match env iu.2 with
  | .httpFail => none
  | .decodeFail => none
  | .ok w h saveOk =>
    if w < 100 ∨ h < 100 then none
    else if saveOk then some ⟨pathJoin outDir (imageFilename iu.1), w, h⟩
    else none

theorem downloadGo_enumFrom (env : Str → FetchOutcome) (outDir : Str) :
    ∀ (urls : List Str) (k : Nat),
      downloadGo env outDir k urls
        = (List.enumFrom k urls).filterMap (fetchStep env outDir) := by
  intro urls
  induction urls with
  | nil => intro k; rfl
  | cons u rest ih =>
    intro k
    have he : List.enumFrom k (u :: rest) = (k, u) :: List.enumFrom (k + 1) rest := rfl
    rw [he]
    cases hu : env u with
    | httpFail =>
      have hstep : fetchStep env outDir (k, u) = none := by simp [fetchStep, hu]
      rw [List.filterMap_cons_none hstep]
      simp only [downloadGo, hu]
      exact ih (k + 1)
    | decodeFail =>
      have hstep : fetchStep env outDir (k, u) = none := by simp [fetchStep, hu]
      rw [List.filterMap_cons_none hstep]
      simp only [downloadGo, hu]
      exact ih (k + 1)
    | ok w h saveOk =>
      simp only [downloadGo, hu]
      by_cases hd : w < 100 ∨ h < 100
      · have hstep : fetchStep env outDir (k, u) = none := by
          simp only [fetchStep, hu]
          rw [if_pos hd]
        rw [List.filterMap_cons_none hstep, if_pos hd]
        exact ih (k + 1)
      · cases saveOk with
        | true =>
          have hstep : fetchStep env outDir (k, u)
              = some ⟨pathJoin outDir (imageFilename k), w, h⟩ := by
            simp only [fetchStep, hu]
            rw [if_neg hd, if_pos trivial]
          rw [List.filterMap_cons_some hstep, if_neg hd, if_pos rfl]
          rw [ih (k + 1)]
        | false =>
          have hstep : fetchStep env outDir (k, u) = none := by
            simp only [fetchStep, hu]
            rw [if_neg hd, if_neg (by simp)]
          rw [List.filterMap_cons_none hstep, if_neg hd, if_neg (by simp)]
          exact ih (k + 1)

theorem mem_enumFrom_getElem :
    ∀ (l : List Str) (k i : Nat) (hi : i < l.length),
      (k + i, l[i]) ∈ List.enumFrom k l := by
  intro l
  induction l with
  | nil => intro k i hi; simp at hi
  | cons x xs ih =>
    intro k i hi
    cases i with
    | zero => simp [List.enumFrom]
    | succ n =>
      have hn : n < xs.length := by simpa using Nat.lt_of_succ_lt_succ hi
      have hmem := ih (k + 1) n hn
      have h1 : k + (n + 1) = k + 1 + n := by omega
      simp only [List.enumFrom, List.mem_cons, List.getElem_cons_succ]
      right
      rw [h1]
      exact hmem

/-- C6: the download loop of `download_images` equals a filterMap over the
position-enumerated candidate list, and for a candidate at 0-based
position `i` that succeeds, the file persisted for it is always named
`image_{i+1:03d}.jpg` — the index is derived from the candidate's
position in the input list, not from how many prior candidates
succeeded, so skipped candidates leave gaps in the on-disk numbering. -/
theorem c6_positional_naming (env : Str → FetchOutcome) (outDir : Str) (urls : List Str) :
    downloadGo env outDir 0 urls = urls.enum.filterMap (fetchStep env outDir)
    ∧ ∀ (i : Nat) (hi : i < urls.length) (w h : Nat),
        env urls[i] = .ok w h true → 100 ≤ w → 100 ≤ h →
        (⟨pathJoin outDir ("image_".data ++ pad3 (i + 1) ++ ".jpg".data), w, h⟩
          : RetrievedImage) ∈ downloadGo env outDir 0 urls := by
  refine ⟨downloadGo_enumFrom env outDir urls 0, ?_⟩
  intro i hi w h henv hw hh
  rw [downloadGo_enumFrom env outDir urls 0]
  apply List.mem_filterMap.mpr
  refine ⟨(i, urls[i]), ?_, ?_⟩
  · simpa using mem_enumFrom_getElem urls 0 i hi
  · simp only [fetchStep, henv]
    rw [if_neg (by omega), if_pos trivial]
    rfl

/-- Fetch environment where only the second candidate succeeds. -/
def fetchEnvC6 : Str → FetchOutcome :=
  fun u => if u = "good".data then .ok 640 480 true else .httpFail

/-- C6 witness: with the first candidate failing, the second candidate's
file is still named `image_002.jpg` (position-derived, leaving a gap). -/
theorem c6_witness :
    (⟨pathJoin "output".data ("image_".data ++ pad3 2 ++ ".jpg".data), 640, 480⟩
      : RetrievedImage)
      ∈ downloadGo fetchEnvC6 "output".data 0 ["bad".data, "good".data] :=
  (c6_positional_naming fetchEnvC6 "output".data ["bad".data, "good".data]).2 1
    (by decide) 640 480 (by decide) (by decide) (by decide)

theorem dedupFirst_subset : ∀ (l : List Str) (y : Str), y ∈ dedupFirst l → y ∈ l := by
  intro l
  induction l using dedupFirst.induct with
  | case1 => intro y hy; simp [dedupFirst] at hy
  | case2 x xs ih =>
    intro y hy
    simp only [dedupFirst] at hy
    rcases List.mem_cons.mp hy with h | h
    · simp [h]
    · have h2 := ih y h
      have h3 := List.mem_filter.mp h2
      exact List.mem_cons_of_mem x h3.1

theorem dedupFirst_nodup : ∀ l : List Str, (dedupFirst l).Nodup := by
  intro l
  induction l using dedupFirst.induct with
  | case1 => simp [dedupFirst]
  | case2 x xs ih =>
    simp only [dedupFirst]
    refine List.nodup_cons.mpr ⟨?_, ih⟩
    intro hx
    have := List.mem_filter.mp (dedupFirst_subset _ _ hx)
    simp at this

theorem processGo_eq (page : Str) :
    ∀ (l acc : List Str),
      processGo page acc l
        = acc ++ dedupFirst (((l.filter (fun u => !(strStarts "data:".data u))).map
            (normalizeUrl page)).filter (fun v => decide (v ≠ [] ∧ v ∉ acc))) := by
  intro l
  induction l with
  | nil => intro acc; simp [processGo, dedupFirst]
  | cons u rest ih =>
    intro acc
    by_cases hd : strStarts "data:".data u = true
    · have h1 : processGo page acc (u :: rest) = processGo page acc rest := by
        simp [processGo, hd]
      have h2 : (u :: rest).filter (fun u => !(strStarts "data:".data u))
          = rest.filter (fun u => !(strStarts "data:".data u)) :=
        List.filter_cons_of_neg (by simp [hd])
      rw [h1, h2, ih acc]
    · have h2 : (u :: rest).filter (fun u => !(strStarts "data:".data u))
          = u :: rest.filter (fun u => !(strStarts "data:".data u)) :=
        List.filter_cons_of_pos (by simp [hd])
      rw [h2, List.map_cons]
      by_cases hcond : normalizeUrl page u ≠ [] ∧ normalizeUrl page u ∉ acc
      · have h1 : processGo page acc (u :: rest)
            = processGo page (acc ++ [normalizeUrl page u]) rest := by
          simp only [processGo]
          rw [if_neg (by simp [hd]), if_pos hcond]
        have h3 : (normalizeUrl page u ::
              (rest.filter (fun u => !(strStarts "data:".data u))).map (normalizeUrl page)).filter
              (fun v => decide (v ≠ [] ∧ v ∉ acc))
            = normalizeUrl page u ::
              ((rest.filter (fun u => !(strStarts "data:".data u))).map (normalizeUrl page)).filter
                (fun v => decide (v ≠ [] ∧ v ∉ acc)) :=
          List.filter_cons_of_pos (by simp only [decide_eq_true_eq]; exact hcond)
        rw [h1, ih (acc ++ [normalizeUrl page u]), h3]
        have h4 : dedupFirst (normalizeUrl page u ::
              ((rest.filter (fun u => !(strStarts "data:".data u))).map (normalizeUrl page)).filter
                (fun v => decide (v ≠ [] ∧ v ∉ acc)))
            = normalizeUrl page u :: dedupFirst
                ((((rest.filter (fun u => !(strStarts "data:".data u))).map (normalizeUrl page)).filter
                  (fun v => decide (v ≠ [] ∧ v ∉ acc))).filter
                  (fun y => y ≠ normalizeUrl page u)) := by
          simp only [dedupFirst]
        rw [h4, List.filter_filter]
        have hpt : ∀ y : Str,
            (decide (y ≠ normalizeUrl page u) && decide (y ≠ [] ∧ y ∉ acc))
              = decide (y ≠ [] ∧ y ∉ acc ++ [normalizeUrl page u]) := by
          intro y
          by_cases hy1 : y = [] <;> by_cases hy2 : y ∈ acc
            <;> by_cases hy3 : y = normalizeUrl page u
            <;> simp [hy1, hy2, hy3, List.mem_append]
        have h5 : (((rest.filter (fun u => !(strStarts "data:".data u))).map
              (normalizeUrl page)).filter
              (fun y => decide (y ≠ normalizeUrl page u) && decide (y ≠ [] ∧ y ∉ acc)))
            = (((rest.filter (fun u => !(strStarts "data:".data u))).map
              (normalizeUrl page)).filter
              (fun y => decide (y ≠ [] ∧ y ∉ acc ++ [normalizeUrl page u]))) :=
          List.filter_congr (fun y _ => hpt y)
        rw [h5]
        simp [List.append_assoc]
      · have h1 : processGo page acc (u :: rest) = processGo page acc rest := by
          simp only [processGo]
          rw [if_neg (by simp [hd]), if_neg hcond]
        have h3 : (normalizeUrl page u ::
              (rest.filter (fun u => !(strStarts "data:".data u))).map (normalizeUrl page)).filter
              (fun v => decide (v ≠ [] ∧ v ∉ acc))
            = ((rest.filter (fun u => !(strStarts "data:".data u))).map (normalizeUrl page)).filter
                (fun v => decide (v ≠ [] ∧ v ∉ acc)) :=
          List.filter_cons_of_neg (by simp only [decide_eq_true_eq]; exact hcond)
        rw [h1, h3, ih acc]

/-- C5: for every in-page evaluation result, the extractor's output is
exactly the first-occurrence deduplication of the normalized non-`data:`
candidate URLs, in input order, and therefore contains each unique
normalized URL exactly once while skipping every inline `data:` URL. -/
theorem c5_extract_dedup (page : Str) (records : List Str) :
    extract_image_urls page records = dedupFirst (normCandidates page records)
    ∧ (extract_image_urls page records).Nodup := by
  have h := processGo_eq page records []
  have hfe : (((records.filter (fun u => !(strStarts "data:".data u))).map
        (normalizeUrl page)).filter (fun v => decide (v ≠ [] ∧ v ∉ ([] : List Str))))
      = normCandidates page records := by
    unfold normCandidates
    refine List.filter_congr (fun y _ => ?_)
    simp
  rw [extract_image_urls, h, hfe]
  exact ⟨by simp, by simpa using dedupFirst_nodup (normCandidates page records)⟩

/-- Well-formedness of the page URL, as the scraper's hardcoded article
URL satisfies it: a literal lowercase `http://` or `https://` prefix and
a nonempty host part. -/
def WfBase (page : Str) : Prop :=
  (strStarts "http://".data page = true ∨ strStarts "https://".data page = true)
  ∧ (urlsplitWith [] page).netloc ≠ []

instance (page : Str) : Decidable (WfBase page) := by
  unfold WfBase
  infer_instance

theorem scheme_of_http (r : Str) :
    (urlsplitWith [] ("http://".data ++ r)).scheme = "http".data := rfl

theorem scheme_of_https (r : Str) :
    (urlsplitWith [] ("https://".data ++ r)).scheme = "https".data := rfl

theorem wf_scheme {page : Str} (hwf : WfBase page) :
    (urlsplitWith [] page).scheme = "http".data
    ∨ (urlsplitWith [] page).scheme = "https".data := by
  rcases hwf.1 with h | h
  · obtain ⟨r, rfl⟩ := strStarts_eq_append h
    exact Or.inl (scheme_of_http r)
  · obtain ⟨r, rfl⟩ := strStarts_eq_append h
    exact Or.inr (scheme_of_https r)

theorem withQuery_starts {pre u : Str} (q : Str) (h : strStarts pre u = true) :
    strStarts pre (withQuery q u) = true := by
  unfold withQuery
  split
  · exact strStarts_append_right _ h
  · exact h

theorem withFrag_starts {pre u : Str} (f : Str) (h : strStarts pre u = true) :
    strStarts pre (withFrag f u) = true := by
  unfold withFrag
  split
  · exact strStarts_append_right _ h
  · exact h

theorem urlunsplit_starts (p : UrlParts) (hn : p.netloc ≠ []) (hs : p.scheme ≠ []) :
    strStarts (p.scheme ++ "://".data) (urlunsplit p) = true := by
  unfold urlunsplit
  apply withFrag_starts
  apply withQuery_starts
  have hnp : netlocPart p = "//".data ++ p.netloc ++ pathPart p.path := by
    unfold netlocPart
    rw [if_pos (Or.inl hn)]
  have hws : withScheme p.scheme ("//".data ++ p.netloc ++ pathPart p.path)
      = p.scheme ++ ':' :: ("//".data ++ p.netloc ++ pathPart p.path) := by
    unfold withScheme
    rw [if_pos hs]
  rw [hnp, hws]
  have hassoc : p.scheme ++ ':' :: ("//".data ++ p.netloc ++ pathPart p.path)
      = (p.scheme ++ "://".data) ++ (p.netloc ++ pathPart p.path) := by
    simp
  rw [hassoc]
  exact strStarts_append _ _

theorem urljoinMain_cases (b r : UrlParts) (url : Str)
    (hbs : b.scheme = "http".data ∨ b.scheme = "https".data)
    (hbn : b.netloc ≠ []) :
    urljoinMain b r url = url
    ∨ strStarts (b.scheme ++ "://".data) (urljoinMain b r url) = true := by
  unfold urljoinMain
  by_cases hearly : r.scheme ≠ b.scheme ∨ r.scheme ∉ usesRelative
  · rw [if_pos hearly]
    exact Or.inl rfl
  · rw [if_neg hearly]
    push_neg at hearly
    obtain ⟨hsch, _⟩ := hearly
    have hsne : r.scheme ≠ [] := by
      rw [hsch]
      rcases hbs with h | h <;> simp [h]
    have husenet : r.scheme ∈ usesNetloc := by
      rw [hsch]
      rcases hbs with h | h <;> rw [h] <;> decide
    by_cases hn : r.netloc ≠ []
    · rw [if_pos ⟨husenet, hn⟩]
      right
      have := urlunsplit_starts ⟨r.scheme, r.netloc, r.path, r.query, r.frag⟩ hn hsne
      simpa [hsch] using this
    · rw [if_neg (by intro hx; exact hn hx.2)]
      right
      push_neg at hn
      rw [if_pos husenet]
      by_cases hpath : r.path = []
      · rw [if_pos hpath]
        have := urlunsplit_starts
          ⟨r.scheme, b.netloc, b.path, (if r.query = [] then b.query else r.query), r.frag⟩
          hbn hsne
        simpa [hsch] using this
      · rw [if_neg hpath]
        have := urlunsplit_starts ⟨r.scheme, b.netloc, urljoinPath b r, r.query, r.frag⟩
          hbn hsne
        simpa [hsch] using this

theorem urljoin_starts_or_self {page : Str} (hwf : WfBase page) (u : Str) :
    urljoin page u = u
    ∨ strStarts "http://".data (urljoin page u) = true
    ∨ strStarts "https://".data (urljoin page u) = true := by
  have hpne : page ≠ [] := by
    rcases hwf.1 with h | h <;>
      · obtain ⟨r, rfl⟩ := strStarts_eq_append h
        simp
  by_cases hu : u = []
  · subst hu
    have hj : urljoin page [] = page := by
      unfold urljoin
      rw [if_neg hpne, if_pos rfl]
    rw [hj]
    rcases hwf.1 with h | h
    · exact Or.inr (Or.inl h)
    · exact Or.inr (Or.inr h)
  · have hb : urljoin page u
        = urljoinMain (urlsplitWith [] page)
            (urlsplitWith (urlsplitWith [] page).scheme u) u := by
      unfold urljoin
      rw [if_neg hpne, if_neg hu]
    rw [hb]
    rcases urljoinMain_cases (urlsplitWith [] page)
        (urlsplitWith (urlsplitWith [] page).scheme u) u (wf_scheme hwf) hwf.2 with h | h
    · exact Or.inl h
    · right
      rcases wf_scheme hwf with hs | hs
      · left
        have hc : ("http://".data : Str) = (urlsplitWith [] page).scheme ++ "://".data := by
          rw [hs]
          decide
        rw [hc]
        exact h
      · right
        have hc : ("https://".data : Str) = (urlsplitWith [] page).scheme ++ "://".data := by
          rw [hs]
          decide
        rw [hc]
        exact h

theorem normalize_abs {page u : Str}
    (h : strStarts "http://".data u = true ∨ strStarts "https://".data u = true) :
    normalizeUrl page u = u := by
  have h2 : strStarts "//".data u = false := by
    rcases h with h | h <;>
      · obtain ⟨r, rfl⟩ := strStarts_eq_append h
        rfl
  unfold normalizeUrl
  rcases h with h | h <;> simp [h2, h]

theorem starts_slash_not_http {u : Str} (h : strStarts "/".data u = true) :
    strStarts "http://".data u = false ∧ strStarts "https://".data u = false := by
  obtain ⟨r, rfl⟩ := strStarts_eq_append h
  constructor <;> rfl

theorem originOf_abs {page : Str} (hwf : WfBase page) (u : Str) :
    strStarts "http://".data (originOf page ++ u) = true
    ∨ strStarts "https://".data (originOf page ++ u) = true := by
  simp only [originOf]
  rcases wf_scheme hwf with hs | hs
  · left
    rw [hs]
    exact strStarts_append "http://".data ((urlsplitWith [] page).netloc ++ u)
  · right
    rw [hs]
    exact strStarts_append "https://".data ((urlsplitWith [] page).netloc ++ u)

/-- C8: URL normalization is idempotent for a well-formed page URL: URLs
already starting with `http://` or `https://` are returned unchanged, and
normalizing twice equals normalizing once; protocol-relative URLs get
`https:` prefixed, root-relative URLs get the page's scheme-and-host
origin prefixed, and all other URLs are resolved against the page URL by
standard base-URL resolution (`urljoin`). -/
theorem c8_normalization (page : Str) (hwf : WfBase page) :
    (∀ u, strStarts "http://".data u = true ∨ strStarts "https://".data u = true →
        normalizeUrl page u = u)
    ∧ (∀ u, normalizeUrl page (normalizeUrl page u) = normalizeUrl page u)
    ∧ (∀ u, strStarts "//".data u = true → normalizeUrl page u = "https:".data ++ u)
    ∧ (∀ u, strStarts "/".data u = true → strStarts "//".data u = false →
        normalizeUrl page u = originOf page ++ u)
    ∧ (∀ u, strStarts "//".data u = false → strStarts "http://".data u = false →
        strStarts "https://".data u = false → strStarts "/".data u = false →
        normalizeUrl page u = urljoin page u) := by
  refine ⟨fun u h => normalize_abs h, fun u => ?_, fun u h => ?_,
    fun u h1 h2 => ?_, fun u h1 h2 h3 h4 => ?_⟩
  · by_cases h1 : strStarts "//".data u = true
    · obtain ⟨r, rfl⟩ := strStarts_eq_append h1
      have hstep : normalizeUrl page ("//".data ++ r)
          = "https:".data ++ ("//".data ++ r) := by
        unfold normalizeUrl
        rw [if_pos h1]
      rw [hstep]
      exact normalize_abs (Or.inr (strStarts_append "https://".data r))
    · by_cases h2 : (strStarts "http://".data u || strStarts "https://".data u) = true
      · have h2' : strStarts "http://".data u = true ∨ strStarts "https://".data u = true := by
          simpa using h2
        rw [normalize_abs h2']
        exact normalize_abs h2'
      · by_cases h3 : strStarts "/".data u = true
        · have hh := starts_slash_not_http h3
          have hstep : normalizeUrl page u = originOf page ++ u := by
            unfold normalizeUrl
            rw [if_neg (by simp [h1]), if_neg (by simp [hh.1, hh.2]), if_pos h3]
          rw [hstep]
          exact normalize_abs (originOf_abs hwf u)
        · have hstep : normalizeUrl page u = urljoin page u := by
            unfold normalizeUrl
            rw [if_neg (by simp [h1]), if_neg (by simpa using h2), if_neg (by simp [h3])]
          rw [hstep]
          rcases urljoin_starts_or_self hwf u with hj | hj | hj
          · rw [hj]
            exact hstep.trans hj
          · exact normalize_abs (Or.inl hj)
          · exact normalize_abs (Or.inr hj)
  · unfold normalizeUrl
    rw [if_pos h]
  · have hh := starts_slash_not_http h1
    unfold normalizeUrl
    rw [if_neg (by simp [h2]), if_neg (by simp [hh.1, hh.2]), if_pos h1]
  · unfold normalizeUrl
    rw [if_neg (by simp [h1]), if_neg (by simp [h2, h3]), if_neg (by simp [h4])]

/-- The scraper's hardcoded article host, as a concrete well-formed page
URL. -/
def pageEx : Str := "https://mp.weixin.qq.com/s".data

/-- C8 witness: the page URL is well-formed and normalizing a relative
candidate URL twice equals normalizing it once. -/
theorem c8_witness :
    WfBase pageEx
    ∧ normalizeUrl pageEx (normalizeUrl pageEx "img/x.jpg".data)
        = normalizeUrl pageEx "img/x.jpg".data :=
  ⟨by decide, (c8_normalization pageEx (by decide)).2.1 "img/x.jpg".data⟩
